import Mathlib

/-!
Shallow embedding of the text-chunking algorithm of the mira-ailyser
backend.  The function `chunk_text` appears twice in the repository, in
`backend/test_pdf_upload.py` (lines 58-112) and in
`backend/test_pdf_upload_fixed.py` (lines 88-142); both copies are
translated here (`chunk_text` and `chunk_text_fixed`).  Python integers
are modelled as `Int`, Python strings as `String`, `str.split()` as
`pySplit`, the Python slice `lst[k:]` as `pySliceFrom`, and Python floor
division `//` as `Int.fdiv`.
-/

namespace MiraChunker

/-- The chunk record built by `chunk_text`: in the Python source it is the
dict `{"chunk_id": ..., "text": ..., "length": ..., "word_count": ...}`. -/
structure Chunk where
  chunk_id : Nat
  text : String
  length : Nat
  word_count : Nat
deriving DecidableEq, Repr

/-- Helper for `pySplit`: walks the character list keeping the current
(reversed) in-progress word in `acc`. -/
def pySplitAux : List Char → List Char → List String
  | [], [] => []
  | [], acc => [String.mk acc.reverse]
  | c :: cs, acc =>
    if c.isWhitespace then
      if acc.isEmpty then pySplitAux cs []
      else String.mk acc.reverse :: pySplitAux cs []
    else pySplitAux cs (c :: acc)

/-- Python `text.split()`: split on runs of whitespace, discarding empty
tokens (so the result never contains the empty string and no token
contains whitespace). -/
def pySplit (s : String) : List String :=
  pySplitAux s.data []

/-- Python slice `l[k:]` for an arbitrary integer index `k`: a negative
index counts from the end (clamped at the start of the list). -/
def pySliceFrom {α : Type} (l : List α) (k : Int) : List α :=
  if k < 0 then l.drop (l.length - k.natAbs) else l.drop k.toNat

/-- Python `sum(len(w) + 1 for w in ws)`, the running length estimate kept
by `chunk_text` (`+ 1` for the separating space). -/
def pyLen (ws : List String) : Int :=
  match ws with
  | [] => 0
  | w :: rest => ((w.length : Int) + 1) + pyLen rest

/-- Builds the chunk record emitted by `chunk_text`:
`text` is `' '.join(current_chunk)`, `length` is `len(text)` and
`word_count` is `len(current_chunk)`. -/
def mkChunk (id : Nat) (ws : List String) : Chunk :=
  { chunk_id := id
    text := String.intercalate " " ws
    length := (String.intercalate " " ws).length
    word_count := ws.length }

/-- The overlap seed installed when a chunk closes:
`current_chunk[-overlap//10:] if overlap > 0 else []`.  Note that in
Python `-overlap//10` parses as `(-overlap)//10` (floor division of a
negative number). -/
def seedWordsOf (overlap : Int) (current_chunk : List String) : List String :=
  if 0 < overlap then pySliceFrom current_chunk (Int.fdiv (-overlap) 10) else []

/-- The word loop of `chunk_text` (`test_pdf_upload.py` lines 80-110),
with the accumulator `current_chunk`, the running estimate
`current_length` and the counter `chunk_id` passed explicitly; the
final-flush of lines 103-110 is the `[]` case. -/
def chunkLoop (chunk_size overlap : Int) :
    List String → List String → Int → Nat → List Chunk
  | [], current_chunk, _, chunk_id =>
    if current_chunk ≠ [] then [mkChunk chunk_id current_chunk] else []
  | word :: rest, current_chunk, current_length, chunk_id =>
    if current_length + ((word.length : Int) + 1) > chunk_size ∧ current_chunk ≠ [] then
      mkChunk chunk_id current_chunk ::
        chunkLoop chunk_size overlap rest
          (seedWordsOf overlap current_chunk ++ [word])
          (pyLen (seedWordsOf overlap current_chunk ++ [word]))
          (chunk_id + 1)
    else
      chunkLoop chunk_size overlap rest
        (current_chunk ++ [word])
        (current_length + ((word.length : Int) + 1))
        chunk_id

/-- `chunk_text` of `backend/test_pdf_upload.py` (lines 58-112). -/
def chunk_text (text : String) (chunk_size overlap : Int) : List Chunk :=
  chunkLoop chunk_size overlap (pySplit text) [] 0 0

/-- The word loop of the `chunk_text` copy in
`backend/test_pdf_upload_fixed.py` (lines 110-140); the source is
line-for-line identical to the copy in `test_pdf_upload.py`. -/
def chunkLoopFixed (chunk_size overlap : Int) :
    List String → List String → Int → Nat → List Chunk
  | [], current_chunk, _, chunk_id =>
    if current_chunk ≠ [] then [mkChunk chunk_id current_chunk] else []
  | word :: rest, current_chunk, current_length, chunk_id =>
    if current_length + ((word.length : Int) + 1) > chunk_size ∧ current_chunk ≠ [] then
      mkChunk chunk_id current_chunk ::
        chunkLoopFixed chunk_size overlap rest
          (seedWordsOf overlap current_chunk ++ [word])
          (pyLen (seedWordsOf overlap current_chunk ++ [word]))
          (chunk_id + 1)
    else
      chunkLoopFixed chunk_size overlap rest
        (current_chunk ++ [word])
        (current_length + ((word.length : Int) + 1))
        chunk_id

/-- `chunk_text` of `backend/test_pdf_upload_fixed.py` (lines 88-142). -/
def chunk_text_fixed (text : String) (chunk_size overlap : Int) : List Chunk :=
  chunkLoopFixed chunk_size overlap (pySplit text) [] 0 0

/-- Error taxonomy the specification assigns to the chunker. -/
inductive ChunkError where
  | invalidArgument
deriving DecidableEq, Repr

/-- The word loop of `chunk_text` written in the `Except` monad so that
raising an exception is representable; the Python body contains no
`raise` and no fallible operation, so every branch is pure. -/
def chunkLoopE (chunk_size overlap : Int) :
    List String → List String → Int → Nat → Except ChunkError (List Chunk)
  | [], current_chunk, _, chunk_id =>
    pure (if current_chunk ≠ [] then [mkChunk chunk_id current_chunk] else [])
  | word :: rest, current_chunk, current_length, chunk_id =>
    if current_length + ((word.length : Int) + 1) > chunk_size ∧ current_chunk ≠ [] then do
      let tail ← chunkLoopE chunk_size overlap rest
        (seedWordsOf overlap current_chunk ++ [word])
        (pyLen (seedWordsOf overlap current_chunk ++ [word]))
        (chunk_id + 1)
      pure (mkChunk chunk_id current_chunk :: tail)
    else
      chunkLoopE chunk_size overlap rest
        (current_chunk ++ [word])
        (current_length + ((word.length : Int) + 1))
        chunk_id

/-- `chunk_text` as a fallible computation: the set of errors it can
actually raise is visible in the type.  The Python source performs no
argument validation and has no error path. -/
def chunk_text_impl (text : String) (chunk_size overlap : Int) :
    Except ChunkError (List Chunk) :=
  chunkLoopE chunk_size overlap (pySplit text) [] 0 0

/-- The word-group view of the loop: the same recursion as `chunkLoop`
but recording each emitted chunk as its list of words instead of the
joined record.  `chunkLoop` is proved equal to numbering these groups. -/
def chunkGroups (chunk_size overlap : Int) :
    List String → List String → Int → List (List String)
  | [], current_chunk, _ =>
    if current_chunk ≠ [] then [current_chunk] else []
  | word :: rest, current_chunk, current_length =>
    if current_length + ((word.length : Int) + 1) > chunk_size ∧ current_chunk ≠ [] then
      current_chunk ::
        chunkGroups chunk_size overlap rest
          (seedWordsOf overlap current_chunk ++ [word])
          (pyLen (seedWordsOf overlap current_chunk ++ [word]))
    else
      chunkGroups chunk_size overlap rest
        (current_chunk ++ [word])
        (current_length + ((word.length : Int) + 1))

/-- The word groups of the chunks `chunk_text text chunk_size overlap`
emits, in emission order. -/
def chunkWordGroups (text : String) (chunk_size overlap : Int) :
    List (List String) :=
  chunkGroups chunk_size overlap (pySplit text) [] 0

/-- Numbers a list of word groups with consecutive `chunk_id`s starting
at `id`, building the chunk records. -/
def numberFrom : Nat → List (List String) → List Chunk
  | _, [] => []
  | id, g :: gs => mkChunk id g :: numberFrom (id + 1) gs

/-- Relation between a closed chunk `g` and the next chunk `g'`: the
overlap seed of `g` is a suffix of `g`, reappears verbatim at the head of
`g'`, and `g'` contains at least one further word (the word whose arrival
closed `g`). -/
def seedRel (overlap : Int) (g g' : List String) : Prop :=
  seedWordsOf overlap g <:+ g ∧
  g'.take (seedWordsOf overlap g).length = seedWordsOf overlap g ∧
  (seedWordsOf overlap g).length < g'.length

/-- Removes from every group its leading overlap seed, the seed being
computed from the preceding group `prev`. -/
def unseedFrom (overlap : Int) : List String → List (List String) → List String
  | _, [] => []
  | prev, g :: gs =>
    g.drop (seedWordsOf overlap prev).length ++ unseedFrom overlap g gs

/-- Concatenation of all groups' words with every overlap seed removed:
the first group is kept whole, each later group loses its seed. -/
def unseed (overlap : Int) : List (List String) → List String
  | [] => []
  | g :: gs => g ++ unseedFrom overlap g gs

/-- `chunkLoop` is the numbering of the word groups: the loop emits
exactly the groups of `chunkGroups`, with consecutive ids. -/
theorem chunkLoop_eq_numberFrom (cs ov : Int) (ws : List String) :
    ∀ (cur : List String) (len : Int) (id : Nat),
      chunkLoop cs ov ws cur len id = numberFrom id (chunkGroups cs ov ws cur len) := by
  induction ws with
  | nil =>
    intro cur len id
    by_cases h : cur = [] <;> simp [chunkLoop, chunkGroups, numberFrom, h]
  | cons w rest ih =>
    intro cur len id
    by_cases h : len + ((w.length : Int) + 1) > cs ∧ cur ≠ [] <;>
      simp [chunkLoop, chunkGroups, numberFrom, h, ih]

/-- The two textually identical loops agree. -/
theorem chunkLoopFixed_eq (cs ov : Int) (ws : List String) :
    ∀ (cur : List String) (len : Int) (id : Nat),
      chunkLoopFixed cs ov ws cur len id = chunkLoop cs ov ws cur len id := by
  induction ws with
  | nil => intro cur len id; rfl
  | cons w rest ih =>
    intro cur len id
    by_cases h : len + ((w.length : Int) + 1) > cs ∧ cur ≠ [] <;>
      simp [chunkLoopFixed, chunkLoop, h, ih]

/-- The `Except`-monad loop never leaves the `ok` path and computes the
same chunks as `chunkLoop`. -/
theorem chunkLoopE_eq (cs ov : Int) (ws : List String) :
    ∀ (cur : List String) (len : Int) (id : Nat),
      chunkLoopE cs ov ws cur len id = Except.ok (chunkLoop cs ov ws cur len id) := by
  induction ws with
  | nil => intro cur len id; rfl
  | cons w rest ih =>
    intro cur len id
    by_cases h : len + ((w.length : Int) + 1) > cs ∧ cur ≠ [] <;>
      simp [chunkLoopE, chunkLoop, h, ih]

/-- Numbering preserves the number of groups. -/
theorem numberFrom_length (gs : List (List String)) :
    ∀ id : Nat, (numberFrom id gs).length = gs.length := by
  induction gs with
  | nil => intro id; rfl
  | cons g gs ih => intro id; simp [numberFrom, ih]

/-- The ids of `numberFrom id gs` are `id, id+1, ...`. -/
theorem numberFrom_map_id (gs : List (List String)) :
    ∀ id : Nat, (numberFrom id gs).map Chunk.chunk_id = List.range' id gs.length := by
  induction gs with
  | nil => intro id; rfl
  | cons g gs ih => intro id; simp [numberFrom, mkChunk, ih, List.range']

/-- Every chunk of `numberFrom id gs` is `mkChunk` of one of the groups. -/
theorem numberFrom_mem (gs : List (List String)) :
    ∀ (id : Nat) (c : Chunk), c ∈ numberFrom id gs →
      ∃ i : Nat, ∃ g ∈ gs, c = mkChunk i g := by
  induction gs with
  | nil => intro id c hc; simp [numberFrom] at hc
  | cons g gs ih =>
    intro id c hc
    rcases (by simpa [numberFrom] using hc : c = mkChunk id g ∨ c ∈ numberFrom (id + 1) gs) with
      h | h
    · exact ⟨id, g, by simp, h⟩
    · obtain ⟨i, g', hg', hc'⟩ := ih (id + 1) c h
      exact ⟨i, g', by simp [hg'], hc'⟩

/-- When started with a non-empty accumulator the loop emits at least one
group, and the first emitted group extends the current accumulator. -/
theorem chunkGroups_cons (cs ov : Int) (ws : List String) :
    ∀ (cur : List String) (len : Int), cur ≠ [] →
      ∃ ext gs, chunkGroups cs ov ws cur len = (cur ++ ext) :: gs := by
  induction ws with
  | nil =>
    intro cur len h
    exact ⟨[], [], by simp [chunkGroups, h]⟩
  | cons w rest ih =>
    intro cur len h
    by_cases hc : len + ((w.length : Int) + 1) > cs ∧ cur ≠ []
    · refine ⟨[], chunkGroups cs ov rest (seedWordsOf ov cur ++ [w])
        (pyLen (seedWordsOf ov cur ++ [w])), ?_⟩
      simp [chunkGroups, hc]
    · obtain ⟨ext, gs, he⟩ := ih (cur ++ [w]) (len + ((w.length : Int) + 1)) (by simp)
      exact ⟨w :: ext, gs, by simp [chunkGroups, hc, he]⟩

/-- No emitted word group is empty. -/
theorem chunkGroups_mem_ne_nil (cs ov : Int) (ws : List String) :
    ∀ (cur : List String) (len : Int) (g : List String),
      g ∈ chunkGroups cs ov ws cur len → g ≠ [] := by
  induction ws with
  | nil =>
    intro cur len g hg
    by_cases h : cur = [] <;> simp [chunkGroups, h] at hg
    exact hg ▸ h
  | cons w rest ih =>
    intro cur len g hg
    by_cases hc : len + ((w.length : Int) + 1) > cs ∧ cur ≠ []
    · rcases (by simpa [chunkGroups, hc] using hg :
        g = cur ∨ g ∈ chunkGroups cs ov rest
          (seedWordsOf ov cur ++ [w])
          (pyLen (seedWordsOf ov cur ++ [w]))) with h | h
      · exact h ▸ hc.2
      · exact ih _ _ _ h
    · exact ih _ _ _ (by simpa [chunkGroups, hc] using hg)

/-- The overlap seed is always a suffix of the closing chunk (both
branches of the Python slice are suffixes). -/
theorem seedWordsOf_suffix (ov : Int) (cur : List String) :
    seedWordsOf ov cur <:+ cur := by
  unfold seedWordsOf pySliceFrom
  by_cases h : 0 < ov
  · by_cases hk : Int.fdiv (-ov) 10 < 0 <;> simp [h, hk, List.drop_suffix]
  · simp [h]

/-- Consecutive emitted word groups are related by `seedRel`: each chunk
after the first starts with the overlap seed of its predecessor and
contains at least one more word. -/
theorem chunkGroups_chain (cs ov : Int) (ws : List String) :
    ∀ (cur : List String) (len : Int),
      List.Chain' (seedRel ov) (chunkGroups cs ov ws cur len) := by
  induction ws with
  | nil =>
    intro cur len
    by_cases h : cur = [] <;> simp [chunkGroups, h]
  | cons w rest ih =>
    intro cur len
    by_cases hc : len + ((w.length : Int) + 1) > cs ∧ cur ≠ []
    · have hne : seedWordsOf ov cur ++ [w] ≠ [] := by simp
      obtain ⟨ext, gs, he⟩ := chunkGroups_cons cs ov rest
        (seedWordsOf ov cur ++ [w]) (pyLen (seedWordsOf ov cur ++ [w])) hne
      simp only [chunkGroups]
      rw [if_pos hc, he, List.chain'_cons]
      constructor
      · show seedRel ov cur (seedWordsOf ov cur ++ [w] ++ ext)
        refine ⟨seedWordsOf_suffix ov cur, ?_, ?_⟩
        · rw [List.append_assoc, List.take_left]
        · simp only [List.length_append, List.length_cons, List.length_nil]
          omega
      · rw [← he]; exact ih _ _
    · simpa [chunkGroups, hc] using ih (cur ++ [w]) (len + ((w.length : Int) + 1))

/-- Removing every overlap seed from the emitted groups recovers the
accumulator followed by the unprocessed words. -/
theorem unseed_chunkGroups (cs ov : Int) (ws : List String) :
    ∀ (cur : List String) (len : Int), cur ≠ [] →
      unseed ov (chunkGroups cs ov ws cur len) = cur ++ ws := by
  induction ws with
  | nil =>
    intro cur len h
    simp [chunkGroups, h, unseed, unseedFrom]
  | cons w rest ih =>
    intro cur len h
    by_cases hc : len + ((w.length : Int) + 1) > cs ∧ cur ≠ []
    · have hne : seedWordsOf ov cur ++ [w] ≠ [] := by simp
      obtain ⟨ext, gs, he⟩ := chunkGroups_cons cs ov rest
        (seedWordsOf ov cur ++ [w]) (pyLen (seedWordsOf ov cur ++ [w])) hne
      have hIH := ih (seedWordsOf ov cur ++ [w]) (pyLen (seedWordsOf ov cur ++ [w])) hne
      rw [he] at hIH
      simp only [unseed, unseedFrom] at hIH
      simp only [chunkGroups]
      rw [if_pos hc, he]
      simp only [unseed, unseedFrom]
      have hdrop : ((seedWordsOf ov cur ++ [w]) ++ ext).drop (seedWordsOf ov cur).length
          = w :: ext := by
        rw [List.append_assoc, List.drop_left]
        rfl
      have hIH2 : (seedWordsOf ov cur ++ [w]) ++
          (ext ++ unseedFrom ov (seedWordsOf ov cur ++ [w] ++ ext) gs)
          = (seedWordsOf ov cur ++ [w]) ++ rest := by
        simpa [List.append_assoc] using hIH
      have hcancel := List.append_cancel_left hIH2
      rw [hdrop]
      simp only [List.cons_append, List.append_assoc, List.singleton_append,
        List.nil_append]
      have hcancel2 : ext ++ unseedFrom ov (seedWordsOf ov cur ++ w :: ext) gs = rest := by
        simpa using hcancel
      rw [hcancel2]
    · have := ih (cur ++ [w]) (len + ((w.length : Int) + 1)) (by simp)
      simpa [chunkGroups, hc] using this

/-- With no tokens the loop runs zero iterations and the final flush is
skipped. -/
theorem chunkWordGroups_of_nil (t : String) (cs ov : Int) (h : pySplit t = []) :
    chunkWordGroups t cs ov = [] := by
  unfold chunkWordGroups
  rw [h]
  rfl

/-- The first word is always appended to the empty accumulator (the close
condition requires a non-empty accumulator), so the run is the loop
started at `[w]`. -/
theorem chunkWordGroups_of_cons (t : String) (cs ov : Int) (w : String)
    (rest : List String) (h : pySplit t = w :: rest) :
    chunkWordGroups t cs ov = chunkGroups cs ov rest [w] ((w.length : Int) + 1) := by
  unfold chunkWordGroups
  rw [h]
  simp only [chunkGroups]
  rw [if_neg (by simp)]
  norm_num

/-- The number of words in the overlap seed: for positive `overlap` the
Python slice `current_chunk[-overlap//10:]` keeps the last
`⌈overlap / 10⌉` words (clamped at the chunk's word count), because
`-overlap//10` is floor division of a negative number; for
`overlap ≤ 0` the seed is empty. -/
theorem seedWordsOf_length (ov : Int) (cur : List String) :
    (seedWordsOf ov cur).length =
      if 0 < ov then min ((ov.toNat + 9) / 10) cur.length else 0 := by
  by_cases h : 0 < ov
  · obtain ⟨m, hm⟩ : ∃ m : Nat, ov = (m : Int) + 1 := ⟨ov.toNat - 1, by omega⟩
    have hneg : -ov = Int.negSucc m := by
      rw [hm, ← Int.negSucc_eq]
    have hfdiv : Int.fdiv (-ov) 10 = Int.negSucc (m / 10) := by
      rw [hneg]
      rfl
    have htoNat : ov.toNat = m + 1 := by omega
    rw [seedWordsOf, if_pos h, pySliceFrom, hfdiv,
      if_pos (Int.negSucc_lt_zero _), if_pos h, htoNat]
    simp only [Int.natAbs_negSucc, List.length_drop]
    omega
  · simp [seedWordsOf, h]

/-- `chunk_text` in record form equals the numbered word groups. -/
theorem chunk_text_eq_numberFrom (text : String) (chunk_size overlap : Int) :
    chunk_text text chunk_size overlap =
      numberFrom 0 (chunkWordGroups text chunk_size overlap) :=
  chunkLoop_eq_numberFrom chunk_size overlap (pySplit text) [] 0 0

/-- The `text` fields of the chunks are the space-joins of the word
groups. -/
theorem numberFrom_map_text (gs : List (List String)) :
    ∀ id : Nat, (numberFrom id gs).map Chunk.text =
      gs.map (String.intercalate " ") := by
  induction gs with
  | nil => intro id; rfl
  | cons g gs ih => intro id; simp [numberFrom, mkChunk, ih]

/-- Claim C1, counterexample.  The claim states that with `overlap > 0` a
freshly closed chunk seeds the next one with its last `overlap // 10`
(floor) words.  With `overlap = 5` we have `5 // 10 = 0`, so the claim
predicts the second chunk to consist of the trigger word alone
(`"cccc"`); the code instead evaluates `current_chunk[-5//10:]`, i.e.
`current_chunk[-1:]`, seeding one word, and the second chunk is
`"bbbb cccc"`. -/
theorem claim_C1_counterexample :
    chunk_text "aaaa bbbb cccc" 10 5 =
      [Chunk.mk 0 "aaaa bbbb" 9 2, Chunk.mk 1 "bbbb cccc" 9 2] ∧
    Int.fdiv 5 10 = 0 ∧
    chunk_text "aaaa bbbb cccc" 10 5 ≠
      [Chunk.mk 0 "aaaa bbbb" 9 2, Chunk.mk 1 "cccc" 4 1] := by
  decide

/-- Claim C1, amended.  Whenever a chunk is closed mid-stream the next
chunk is seeded with exactly the last `⌈overlap / 10⌉` words of the
just-closed chunk (all of its words if that exceeds its word count),
followed by at least the word that triggered the close; when
`overlap ≤ 0` the seed is empty.  The seed count is `⌈overlap / 10⌉`
(ceiling), not `overlap // 10` (floor), because `-overlap//10` in Python
floor-divides a negative numerator. -/
theorem claim_C1_amended (text : String) (chunk_size overlap : Int) :
    List.Chain' (seedRel overlap) (chunkWordGroups text chunk_size overlap) ∧
    (∀ cur : List String, (seedWordsOf overlap cur).length =
      if 0 < overlap then min ((overlap.toNat + 9) / 10) cur.length else 0) ∧
    chunk_text text chunk_size overlap =
      numberFrom 0 (chunkWordGroups text chunk_size overlap) := by
  refine ⟨?_, fun cur => seedWordsOf_length overlap cur,
    chunk_text_eq_numberFrom text chunk_size overlap⟩
  cases hsplit : pySplit text with
  | nil =>
    rw [chunkWordGroups_of_nil text chunk_size overlap hsplit]
    simp
  | cons w rest =>
    rw [chunkWordGroups_of_cons text chunk_size overlap w rest hsplit]
    exact chunkGroups_chain chunk_size overlap rest [w] ((w.length : Int) + 1)

/-- Claim C2, counterexample.  The claim states that every word repeated
for overlap appears exactly twice (tail of chunk `k`, head of chunk
`k+1`).  With `chunk_size = 10, overlap = 20` the seed of a closing
chunk can itself be re-seeded: the word `"bbbb"` appears in three
consecutive chunks, hence three times in total. -/
theorem claim_C2_counterexample :
    chunkWordGroups "aaaa bbbb cccc dddd eeee" 10 20 =
      [["aaaa", "bbbb"], ["aaaa", "bbbb", "cccc"],
        ["bbbb", "cccc", "dddd"], ["cccc", "dddd", "eeee"]] ∧
    List.count "bbbb"
      (List.flatten (chunkWordGroups "aaaa bbbb cccc dddd eeee" 10 20)) = 3 := by
  decide

/-- Claim C2, amended.  Removing from each chunk after the first its
leading overlap-seed words and concatenating the remaining words of all
chunks in `chunk_id` order reproduces the original token sequence
exactly.  (A seed word sits at the tail of chunk `k` and at the head of
chunk `k+1` — see `seedRel` in C1 — but may appear in more than two
chunks when it is re-seeded, so the claimed "exactly twice" does not
hold in general.) -/
theorem claim_C2_amended (text : String) (chunk_size overlap : Int) :
    unseed overlap (chunkWordGroups text chunk_size overlap) = pySplit text ∧
    (chunk_text text chunk_size overlap).map Chunk.text =
      (chunkWordGroups text chunk_size overlap).map (String.intercalate " ") := by
  constructor
  · cases hsplit : pySplit text with
    | nil =>
      rw [chunkWordGroups_of_nil text chunk_size overlap hsplit]
      rfl
    | cons w rest =>
      rw [chunkWordGroups_of_cons text chunk_size overlap w rest hsplit]
      simpa using unseed_chunkGroups chunk_size overlap rest [w]
        ((w.length : Int) + 1) (by simp)
  · rw [chunk_text_eq_numberFrom, numberFrom_map_text]

/-- The P7 input of the specification: a 10-character word repeated 150
times, separated by single spaces. -/
def c3text : String := String.intercalate " " (List.replicate 150 "abcdefgh12")

set_option maxRecDepth 100000 in
/-- Claim C3 (confirmed): on a 10-character word repeated 150 times with
`chunk_size = 100, overlap = 0`, `chunk_text` emits more than one chunk,
every chunk has at most 9 words, and no chunk's length exceeds 100
characters. -/
theorem claim_C3 :
    1 < (chunk_text c3text 100 0).length ∧
    (chunk_text c3text 100 0).all
      (fun c => decide (c.word_count ≤ 9) && decide (c.length ≤ 100)) = true := by
  decide

/-- Claim C4 (confirmed): there is an input whose words are all shorter
than `chunk_size` and yet some emitted chunk is longer than
`chunk_size`: the seed plus trigger word is installed with no budget
check, so a chunk closed soon after the seeding is over budget. -/
theorem claim_C4 :
    ∃ (text : String) (chunk_size overlap : Int),
      0 < overlap ∧
      (∀ w ∈ pySplit text, (w.length : Int) < chunk_size) ∧
      ∃ c ∈ chunk_text text chunk_size overlap, chunk_size < (c.length : Int) := by
  refine ⟨"aaaa bbbb cccc dddd", 10, 20, ?_⟩
  decide

/-- Claim C5 (confirmed): the `chunk_id` fields are exactly
`0, 1, ..., n-1` in emission order. -/
theorem claim_C5 (text : String) (chunk_size overlap : Int) :
    (chunk_text text chunk_size overlap).map Chunk.chunk_id =
      List.range (chunk_text text chunk_size overlap).length := by
  rw [chunk_text_eq_numberFrom, numberFrom_map_id, numberFrom_length,
    List.range_eq_range']

/-- Claim C6 (confirmed): every emitted chunk has `word_count ≥ 1`. -/
theorem claim_C6 (text : String) (chunk_size overlap : Int) (c : Chunk)
    (hc : c ∈ chunk_text text chunk_size overlap) : 1 ≤ c.word_count := by
  rw [chunk_text_eq_numberFrom] at hc
  obtain ⟨i, g, hg, rfl⟩ := numberFrom_mem _ _ _ hc
  have hne : g ≠ [] := by
    cases hsplit : pySplit text with
    | nil =>
      rw [chunkWordGroups_of_nil text chunk_size overlap hsplit] at hg
      simp at hg
    | cons w rest =>
      rw [chunkWordGroups_of_cons text chunk_size overlap w rest hsplit] at hg
      exact chunkGroups_mem_ne_nil chunk_size overlap rest _ _ _ hg
  simpa [mkChunk] using List.length_pos.mpr hne

/-- Witness for C6 at a concrete input. -/
theorem claim_C6_witness : 1 ≤ (Chunk.mk 0 "hello" 5 1).word_count :=
  claim_C6 "hello" 1000 200 (Chunk.mk 0 "hello" 5 1) (by decide)

/-- Claim C7 (confirmed): for every emitted chunk, `length` equals the
character length of `text`, `text` is the chunk's words joined by single
spaces, and `word_count` is the number of those words. -/
theorem claim_C7 (text : String) (chunk_size overlap : Int) (c : Chunk)
    (hc : c ∈ chunk_text text chunk_size overlap) :
    c.length = c.text.length ∧
    ∃ ws : List String, c.text = String.intercalate " " ws ∧
      c.word_count = ws.length := by
  rw [chunk_text_eq_numberFrom] at hc
  obtain ⟨i, g, _, rfl⟩ := numberFrom_mem _ _ _ hc
  exact ⟨rfl, g, rfl, rfl⟩

/-- Witness for C7 at a concrete input. -/
theorem claim_C7_witness :
    (Chunk.mk 0 "hello" 5 1).length = (Chunk.mk 0 "hello" 5 1).text.length ∧
    ∃ ws : List String, (Chunk.mk 0 "hello" 5 1).text = String.intercalate " " ws ∧
      (Chunk.mk 0 "hello" 5 1).word_count = ws.length :=
  claim_C7 "hello" 1000 200 (Chunk.mk 0 "hello" 5 1) (by decide)

/-- Claim C8 (confirmed): the output is empty exactly when the input
splits into zero whitespace-separated tokens; in particular the empty
string yields the empty sequence. -/
theorem claim_C8 (text : String) (chunk_size overlap : Int) :
    (chunk_text text chunk_size overlap = [] ↔ pySplit text = []) ∧
    chunk_text "" chunk_size overlap = [] := by
  constructor
  · rw [chunk_text_eq_numberFrom]
    cases hsplit : pySplit text with
    | nil =>
      rw [chunkWordGroups_of_nil text chunk_size overlap hsplit]
      simp [numberFrom, hsplit]
    | cons w rest =>
      rw [chunkWordGroups_of_cons text chunk_size overlap w rest hsplit]
      obtain ⟨ext, gs, he⟩ := chunkGroups_cons chunk_size overlap rest [w]
        ((w.length : Int) + 1) (by simp)
      rw [he]
      simp [numberFrom, hsplit]
  · rfl

/-- Claim C9, counterexample.  The claim states that `chunk_text` raises
`InvalidArgument` exactly when `chunk_size` is not positive.  The source
performs no validation whatsoever: with `chunk_size = 0` it returns a
normal result (one chunk per word) instead of raising. -/
theorem claim_C9_counterexample :
    chunk_text_impl "hello world" 0 0 =
      Except.ok [Chunk.mk 0 "hello" 5 1, Chunk.mk 1 "world" 5 1] ∧
    chunk_text_impl "hello world" 0 0 ≠ Except.error ChunkError.invalidArgument := by
  have hok : chunk_text_impl "hello world" 0 0 =
      Except.ok [Chunk.mk 0 "hello" 5 1, Chunk.mk 1 "world" 5 1] := rfl
  refine ⟨hok, ?_⟩
  intro h
  rw [hok] at h
  exact Except.noConfusion h

/-- Claim C9, amended.  `chunk_text` never raises: for every string input
and all integer `chunk_size` and `overlap` (positive or not) it returns
`ok` with the chunk list; no argument validation is performed. -/
theorem claim_C9_amended (text : String) (chunk_size overlap : Int) :
    chunk_text_impl text chunk_size overlap =
      Except.ok (chunk_text text chunk_size overlap) :=
  chunkLoopE_eq chunk_size overlap (pySplit text) [] 0 0

/-- Claim C10 (confirmed): the `chunk_text` of `test_pdf_upload.py` and
the `chunk_text` of `test_pdf_upload_fixed.py` agree on every input. -/
theorem claim_C10 (text : String) (chunk_size overlap : Int) :
    chunk_text_fixed text chunk_size overlap =
      chunk_text text chunk_size overlap :=
  chunkLoopFixed_eq chunk_size overlap (pySplit text) [] 0 0

end MiraChunker
